import Mathlib

/-!
Shallow embedding of the KnowledgeOps RAG platform core
(`app/services/document_parser_backup.py`, `app/services/vector_service.py`,
`app/services/llm_service.py`, `main_simple.py`) and proofs of the spec's
claims about it.

Strings are modelled as `List Char`; Python integers as `Int` where the code
can go negative (the chunker's `start` variable), `Nat` elsewhere.
-/

namespace KOps

/-! ### Python string primitives

`DocumentParser.chunk_text` uses `len`, slicing `text[a:b]`, `str.rfind(' ', a, b)`,
`str.strip()` and `str.split()`.  Python slice/rfind indices may be negative, in
which case they count from the end of the string (clamped at 0), and are clamped
above by the length.  These helpers reproduce that semantics exactly. -/

/-- Normalize a Python slice index `i` for a string of length `n`:
negative indices count from the end (clamped below at 0), and any index is
clamped above at `n`. -/
def normIdx (n : Nat) (i : Int) : Nat :=
  if i < 0 then (Int.toNat (n + i)) else min i.toNat n

/-- Python slice `s[a:b]`. -/
def pySlice (s : List Char) (a b : Int) : List Char :=
  let a' := normIdx s.length a
  let b' := normIdx s.length b
  (s.take b').drop a'

/-- Search downward from `b - 1` for the largest index `j ≥ a'` with
`s[j] = ' '`; `-1` when there is none. -/
def rfindAux (s : List Char) (a' : Nat) : Nat → Int
  | 0 => -1
  | j + 1 => if a' ≤ j ∧ s.getD j 'x' = ' ' then (j : Int) else rfindAux s a' j

/-- Python `s.rfind(' ', a, b)`: the largest index `j` with
`normIdx a ≤ j < normIdx b` and `s[j] = ' '`, or `-1` when there is none. -/
def pyRfindSpace (s : List Char) (a b : Int) : Int :=
  rfindAux s (normIdx s.length a) (normIdx s.length b)

/-- Python whitespace for `str.strip()` / `str.split()` (the characters that
occur in this code base's texts). -/
def isWS (c : Char) : Bool :=
  c == ' ' || c == '\t' || c == '\n' || c == '\r'

/-- Python `s.strip()`. -/
def pyStrip (s : List Char) : List Char :=
  ((s.dropWhile isWS).reverse.dropWhile isWS).reverse

/-- Number of words of Python `s.split()` (maximal runs of non-whitespace). -/
def countWords (s : List Char) : Nat :=
  (s.foldl
    (fun (p : Nat × Bool) c =>
      if isWS c then (p.1, false)
      else if p.2 then p else (p.1 + 1, true))
    (0, false)).1

/-! ### Chunker (`DocumentParser.chunk_text`) -/

/-- One chunk record produced by `chunk_text` (the dict with keys
`chunk_id`, `text`, `start_pos`, `end_pos`, `length`, `word_count`). -/
structure Chunk where
  chunk_id : Nat
  text : List Char
  start_pos : Int
  end_pos : Int
  length : Nat
  word_count : Nat
  deriving Repr, DecidableEq

/-- Build the chunk dict appended by `chunk_text`. -/
def mkChunk (cid : Nat) (t : List Char) (s e : Int) : Chunk :=
  { chunk_id := cid, text := t, start_pos := s, end_pos := e,
    length := t.length, word_count := countWords t }

/-- The `end` position computed by one iteration of `chunk_text`'s loop at
`start = s`: `end = start + chunk_size`, shrunk to the last word boundary
`text.rfind(' ', start, end)` when `end < len(text)` and the boundary lies
strictly beyond `start + chunk_size // 2`. -/
def chunkEnd (text : List Char) (cs : Nat) (s : Int) : Int :=
  if s + (cs : Int) < (text.length : Int) then
    if pyRfindSpace text s (s + (cs : Int)) > s + ((cs / 2 : Nat) : Int) then
      pyRfindSpace text s (s + (cs : Int))
    else s + (cs : Int)
  else s + (cs : Int)

/-- The next value of `start`: `end - overlap` when `end < len(text)`, else
`len(text)` (which exits the loop). -/
def chunkNext (text : List Char) (cs ov : Nat) (s : Int) : Int :=
  if chunkEnd text cs s < (text.length : Int) then chunkEnd text cs s - (ov : Int)
  else (text.length : Int)

/-- The candidate chunk text of one iteration: `text[start:end].strip()`. -/
def chunkPiece (text : List Char) (cs : Nat) (s : Int) : List Char :=
  pyStrip (pySlice text s (chunkEnd text cs s))

/-- The body of `chunk_text`'s `while start < len(text)` loop, run with
explicit fuel (the Python loop has no a-priori bound; `none` means the fuel ran
out before the loop exited).  `start` is an `Int`: the code's
`start = end - overlap` can go negative. -/
def chunkLoop (text : List Char) (cs ov : Nat) :
    Nat → Int → Nat → List Chunk → Option (List Chunk)
  | 0, start, _, acc =>
    if start < (text.length : Int) then none else some acc
  | fuel + 1, start, cid, acc =>
    if start < (text.length : Int) then
      let ctext := chunkPiece text cs start
      let acc' :=
        if ctext ≠ [] then acc ++ [mkChunk cid ctext start (chunkEnd text cs start)]
        else acc
      let cid' := if ctext ≠ [] then cid + 1 else cid
      chunkLoop text cs ov fuel (chunkNext text cs ov start) cid' acc'
    else some acc

/-- The function `DocumentParser.chunk_text(text, chunk_size, overlap)` with explicit fuel:
`some chunks` when the loop exits within `fuel` iterations. -/
def chunkTextFuel (text : List Char) (cs ov : Nat) (fuel : Nat) :
    Option (List Chunk) :=
  if text = [] ∨ pyStrip text = [] then some []
  else chunkLoop text cs ov fuel 0 1 []

/-- Termination of `chunk_text` on this input: some fuel suffices. -/
def chunkTerminates (text : List Char) (cs ov : Nat) : Prop :=
  ∃ fuel, (chunkTextFuel text cs ov fuel).isSome

/-- The value `chunk_text` returns (when it terminates). -/
def chunkText (text : List Char) (cs ov : Nat) (fuel : Nat) : List Chunk :=
  (chunkTextFuel text cs ov fuel).getD []

/-- The loop invariant for the monotonicity proof: the accumulated chunks have
non-decreasing `start_pos`, all of them at most the current `start` when it is
nonnegative; while `start` is negative (mid "excursion"), they are strictly
below the position `start % (cs - ov)` at which the climb will re-enter the
nonnegative range. -/
def chunkInv (text : List Char) (cs ov : Nat) (s : Int) (acc : List Chunk) : Prop :=
  List.Chain' (· ≤ ·) (acc.map Chunk.start_pos) ∧
  (0 ≤ s → ∀ c ∈ acc, c.start_pos ≤ s) ∧
  (s < 0 → (cs : Int) < (text.length : Int) ∧ 0 ≤ s + ((cs / 2 : Nat) : Int) ∧
    ∀ c ∈ acc, c.start_pos < s % ((cs : Int) - (ov : Int)))

/-! ### Concrete inputs used by the claims -/

/-- A representative Scenario 1 input: a text containing the test document's
"Python Best Practices" / "PEP 8" material, longer than one 100-character
window. -/
def scenario1Text : List Char :=
  String.toList
    ("Python Best Practices for Professional Development. Always follow PEP 8 style guidelines. " ++
     "Write self-documenting code. Use meaningful variable names. Write unit tests for all functions. " ++
     "Aim for eighty percent code coverage minimum.")

/-- The chunks `chunk_text` produces for Scenario 1 with
`chunk_size=100, overlap=20`. -/
def scenario1Chunks : List Chunk := chunkText scenario1Text 100 20 20

/-! ### MD5 (`hashlib.md5(...).hexdigest()`)

`VectorService.add_documents` derives chunk ids with
`hashlib.md5(f"{text[:100]}_{i}".encode()).hexdigest()`.  This is a full
implementation of MD5 (RFC 1321) over byte lists, with all 32-bit arithmetic
done as `Nat` reduced `% 2^32`. -/

/-- The 64 per-round left-rotation amounts of MD5 (RFC 1321). -/
def md5s : List Nat :=
  [7, 12, 17, 22, 7, 12, 17, 22, 7, 12, 17, 22, 7, 12, 17, 22,
   5,  9, 14, 20, 5,  9, 14, 20, 5,  9, 14, 20, 5,  9, 14, 20,
   4, 11, 16, 23, 4, 11, 16, 23, 4, 11, 16, 23, 4, 11, 16, 23,
   6, 10, 15, 21, 6, 10, 15, 21, 6, 10, 15, 21, 6, 10, 15, 21]

/-- The 64 sine-derived additive constants of MD5 (RFC 1321). -/
def md5K : List Nat :=
  [0xd76aa478, 0xe8c7b756, 0x242070db, 0xc1bdceee,
   0xf57c0faf, 0x4787c62a, 0xa8304613, 0xfd469501,
   0x698098d8, 0x8b44f7af, 0xffff5bb1, 0x895cd7be,
   0x6b901122, 0xfd987193, 0xa679438e, 0x49b40821,
   0xf61e2562, 0xc040b340, 0x265e5a51, 0xe9b6c7aa,
   0xd62f105d, 0x02441453, 0xd8a1e681, 0xe7d3fbc8,
   0x21e1cde6, 0xc33707d6, 0xf4d50d87, 0x455a14ed,
   0xa9e3e905, 0xfcefa3f8, 0x676f02d9, 0x8d2a4c8a,
   0xfffa3942, 0x8771f681, 0x6d9d6122, 0xfde5380c,
   0xa4beea44, 0x4bdecfa9, 0xf6bb4b60, 0xbebfbc70,
   0x289b7ec6, 0xeaa127fa, 0xd4ef3085, 0x04881d05,
   0xd9d4d039, 0xe6db99e5, 0x1fa27cf8, 0xc4ac5665,
   0xf4292244, 0x432aff97, 0xab9423a7, 0xfc93a039,
   0x655b59c3, 0x8f0ccc92, 0xffeff47d, 0x85845dd1,
   0x6fa87e4f, 0xfe2ce6e0, 0xa3014314, 0x4e0811a1,
   0xf7537e82, 0xbd3af235, 0x2ad7d2bb, 0xeb86d391]

/-- Reduce to a 32-bit word. -/
def w32 (x : Nat) : Nat := x % 4294967296

/-- 32-bit left rotation. -/
def rotl32 (x n : Nat) : Nat :=
  w32 (x * 2 ^ n + x / 2 ^ (32 - n))

/-- 32-bit bitwise complement. -/
def not32 (x : Nat) : Nat := Nat.xor x 4294967295

/-- Append the MD5 padding: a `0x80` byte, zeros until the length is
`56 mod 64`, then the original bit length as a 64-bit little-endian number. -/
def md5pad (msg : List Nat) : List Nat :=
  msg ++ (128 :: List.replicate ((119 - msg.length % 64) % 64) 0) ++
    (List.range 8).map (fun i => (msg.length * 8) / 256 ^ i % 256)

/-- Read the 32-bit little-endian word `g` of a 64-byte block. -/
def md5word (block : List Nat) (g : Nat) : Nat :=
  block.getD (4 * g) 0 + 256 * block.getD (4 * g + 1) 0 +
    65536 * block.getD (4 * g + 2) 0 + 16777216 * block.getD (4 * g + 3) 0

/-- One MD5 round `i` (`0 ≤ i < 64`) acting on the state `(A, B, C, D)`. -/
def md5round (block : List Nat) (st : Nat × Nat × Nat × Nat) (i : Nat) :
    Nat × Nat × Nat × Nat :=
  let (a, b, c, d) := st
  let f :=
    if i < 16 then Nat.lor (Nat.land b c) (Nat.land (not32 b) d)
    else if i < 32 then Nat.lor (Nat.land d b) (Nat.land (not32 d) c)
    else if i < 48 then Nat.xor b (Nat.xor c d)
    else Nat.xor c (Nat.lor b (not32 d))
  let g :=
    if i < 16 then i
    else if i < 32 then (5 * i + 1) % 16
    else if i < 48 then (3 * i + 5) % 16
    else (7 * i) % 16
  let x := w32 (f + a + md5K.getD i 0 + md5word block g)
  (d, w32 (b + rotl32 x (md5s.getD i 0)), b, c)

/-- Process one 64-byte block, updating the 4-word state. -/
def md5block (st : Nat × Nat × Nat × Nat) (block : List Nat) :
    Nat × Nat × Nat × Nat :=
  let (a0, b0, c0, d0) := st
  let (a, b, c, d) := (List.range 64).foldl (md5round block) (a0, b0, c0, d0)
  (w32 (a0 + a), w32 (b0 + b), w32 (c0 + c), w32 (d0 + d))

/-- Fold `md5block` over the `n` 64-byte blocks of `l`. -/
def md5blocksGo : Nat → List Nat → Nat × Nat × Nat × Nat → Nat × Nat × Nat × Nat
  | 0, _, st => st
  | n + 1, l, st => md5blocksGo n (l.drop 64) (md5block st (l.take 64))

/-- One lowercase hex digit. -/
def hexDigit (n : Nat) : Char :=
  if n < 10 then Char.ofNat (48 + n) else Char.ofNat (87 + n)

/-- Little-endian hex rendering of one 32-bit state word (8 hex digits). -/
def md5hexWord (x : Nat) : List Char :=
  (List.range 4).flatMap (fun i =>
    [hexDigit (x / 256 ^ i % 256 / 16), hexDigit (x / 256 ^ i % 16)])

/-- Python's `hashlib.md5(bytes).hexdigest()`. -/
def md5hex (msg : List Nat) : String :=
  let (a, b, c, d) := md5blocksGo ((md5pad msg).length / 64) (md5pad msg)
    (0x67452301, 0xefcdab89, 0x98badcfe, 0x10325476)
  String.mk (md5hexWord a ++ md5hexWord b ++ md5hexWord c ++ md5hexWord d)

/-! ### Vector service (`app/services/vector_service.py`)

The ChromaDB collection is modelled as the list of `(id, document)` pairs it
stores, in insertion order.  The embedding vectors attached to each entry are
omitted from the state: no claim (and neither `get_stats` nor the id logic)
depends on them.  `collection.add` ignores an insert whose id is already
present (ChromaDB logs "Insert of existing embedding ID" and skips it), and
`collection.count()` is the number of stored entries; under an upsert model
the count would be identical. -/

/-- The per-chunk id of `VectorService.add_documents`:
`hashlib.md5(f"{text[:100]}_{i}".encode()).hexdigest()` where `i` is the
chunk's position in the submitted batch.  (Char.toNat equals the UTF-8 byte
for the ASCII texts involved.) -/
def doc_id (i : Nat) (text : String) : String :=
  md5hex ((text.data.take 100 ++ String.data "_" ++ String.data (toString i)).map
    Char.toNat)

/-- ChromaDB's `collection.add`: insert the batch entries in order, skipping ids already
present. -/
def chromaAdd : List (String × String) → List (String × String) →
    List (String × String)
  | st, [] => st
  | st, p :: batch =>
    chromaAdd (if p.1 ∈ st.map Prod.fst then st else st ++ [p]) batch

/-- The method `VectorService.add_documents(documents)`: compute one id per chunk from its
content and batch position, then add `(id, text)` to the collection. -/
def add_documents (st : List (String × String)) (docs : List String) :
    List (String × String) :=
  chromaAdd st (docs.enum.map (fun p => (doc_id p.1 p.2, p.2)))

/-- The statistic `VectorService.get_stats().total_chunks` (= `collection.count()`). -/
def total_chunks (st : List (String × String)) : Nat := st.length

/-- A result row of `VectorService.search_similar`: content text, metadata
mapping, and similarity score. -/
structure RetrievalResult where
  content : String
  metadata : List (String × String)
  score : ℚ
  deriving Repr, DecidableEq

/-- The result formatting of `VectorService.search_similar`: ChromaDB returns
parallel lists of documents, metadatas and cosine distances for a query, and
the service builds one result per row with `score := 1 - distance`. -/
def search_similar_format (docs : List String) (metas : List (List (String × String)))
    (dists : List ℚ) : List RetrievalResult :=
  List.zipWith3 (fun doc m d => { content := doc, metadata := m, score := 1 - d })
    docs metas dists

/-- Dot product of two rational vectors. -/
def dotQ (u v : List ℚ) : ℚ := (List.zipWith (· * ·) u v).sum

/-- The cosine distance `1 - (u⬝v)/(‖u‖‖v‖)` specialized to unit vectors
(`‖u‖ = ‖v‖ = 1`), where it is just `1 - u⬝v`. -/
def cosineDistUnit (u v : List ℚ) : ℚ := 1 - dotQ u v

/-! ### LLM service (`app/services/llm_service.py`)

`LLMService.process_query` with its two effectful collaborators passed in
explicitly: the Groq client (absent, or a completion function that may raise)
and the vector service (absent, or the results its `search_similar` returns —
that method itself returns `[]` on an empty index and on search errors). -/

/-- One role-tagged conversation message. -/
structure Turn where
  role : String
  content : String
  deriving Repr, DecidableEq

/-- Python `l[-n:]`: the trailing window of at most `n` elements. -/
def takeLast {α : Type} (n : Nat) (l : List α) : List α := l.drop (l.length - n)

/-- Python `s[:n]` on a `String`. -/
def pyStrTake (n : Nat) (s : String) : String := String.mk (s.data.take n)

/-- The numbered, truncated passage lines of the RAG context:
`f"Document {i+1}: {r.get('content', '')[:300]}..."` over `results[:3]`. -/
def ragEntries (results : List RetrievalResult) : List String :=
  (results.take 3).enum.map (fun p =>
    "Document " ++ toString (p.1 + 1) ++ ": " ++ pyStrTake 300 p.2.content ++ "...")

/-- The `rag_context` string: empty when retrieval returned nothing, else the entries
joined with blank lines. -/
def ragContext (results : List RetrievalResult) : String :=
  if results = [] then "" else String.intercalate "\n\n" (ragEntries results)

/-- The system message, extended with the RAG context when there is one. -/
def systemMsg (ragCtx : String) : String :=
  "You are a helpful AI assistant with perfect memory of our conversation." ++
    (if ragCtx ≠ "" then
      "\n\nRelevant documents from knowledge base:\n" ++ ragCtx ++
        "\n\nUse these documents to answer when relevant."
     else "")

/-- The conversation turns forwarded to the backend: the last 6 history
entries (`context[-6:]`), skipping those with empty content. -/
def historyMessages (context : List Turn) : List Turn :=
  (takeLast 6 context).filter (fun m => m.content != "")

/-- The message sequence submitted to the backend: system message first, then
the trailing history turns, then the current user turn. -/
def buildMessages (query : String) (context : List Turn) (ragCtx : String) :
    List Turn :=
  ⟨"system", systemMsg ragCtx⟩ :: (historyMessages context ++ [⟨"user", query⟩])

/-- The dict `process_query` returns. -/
structure QueryResult where
  answer : String
  sources : List RetrievalResult
  success : Bool
  model : String
  use_rag : Bool
  deriving Repr, DecidableEq

/-- The method `LLMService._fallback_response(query, sources)`: a numbered extract of up
to 3 truncated passages, or a templated "not available" message naming the
query when there are none.  (`bool(sources)` is nonemptiness.) -/
def fallback_response (query : String) (sources : List RetrievalResult) :
    QueryResult :=
  { answer :=
      if sources.isEmpty then
        "Processing: " ++ query ++ " (AI service not available)"
      else
        "Found " ++ toString sources.length ++ " relevant documents for: " ++
          query ++ "\n\n" ++
          String.join ((sources.take 3).enum.map (fun p =>
            toString (p.1 + 1) ++ ". " ++ pyStrTake 200 p.2.content ++ "...\n"))
    sources := sources
    success := true
    model := "fallback"
    use_rag := !sources.isEmpty }

/-- The retrieval phase of `process_query`: when RAG is enabled and a vector
service exists, the results of its `search_similar` call; else `[]`. -/
def retrievedResults (vector : Option (List RetrievalResult)) (use_rag : Bool) :
    List RetrievalResult :=
  if use_rag then vector.getD [] else []

/-- The method `LLMService.process_query(query, context, use_rag, ...)`.
`groq = none` models a missing client (no API key); `groq = some complete`
models a configured client whose chat call either returns an answer
(`complete msgs = some ans`) or raises (`= none`, caught and sent to the
fallback).  `vector = none` models a vector service that failed to construct;
`vector = some rs` models `search_similar` returning `rs`. -/
def process_query (groq : Option (List Turn → Option String))
    (vector : Option (List RetrievalResult))
    (query : String) (context : List Turn) (use_rag : Bool) : QueryResult :=
  match groq with
  | some complete =>
    match complete (buildMessages query context
        (ragContext (retrievedResults vector use_rag))) with
    | some answer =>
      { answer := answer, sources := retrievedResults vector use_rag,
        success := true, model := "groq/llama3-70b-8192",
        use_rag := ragContext (retrievedResults vector use_rag) != "" }
    | none => fallback_response query (retrievedResults vector use_rag)
  | none => fallback_response query (retrievedResults vector use_rag)

/-! ### Context-aware post-processing (`main_simple.query_for_frontend`) -/

/-- Lowercase an ASCII character (`str.lower()` on the ASCII texts involved). -/
def asciiLower (c : Char) : Char :=
  if 'A' ≤ c ∧ c ≤ 'Z' then Char.ofNat (c.toNat + 32) else c

/-- Python `s.lower()` (ASCII). -/
def strLower (s : String) : String := String.mk (s.data.map asciiLower)

/-- Does `nd` start `hay`? -/
def listStarts : List Char → List Char → Bool
  | [], _ => true
  | _ :: _, [] => false
  | c :: nd, h :: hay => c == h && listStarts nd hay

/-- Does `nd` occur contiguously inside `hay`? -/
def listInfix (nd : List Char) : List Char → Bool
  | [] => listStarts nd []
  | h :: hay => listStarts nd (h :: hay) || listInfix nd hay

/-- Python `needle in hay` on strings. -/
def pyIn (needle hay : String) : Bool := listInfix needle.data hay.data

/-- The anaphoric cue words of the post-processing heuristic. -/
def cue_words : List String := ["it", "that", "this", "more", "explain", "detail"]

/-- The context-awareness step of `query_for_frontend`: when history is
non-empty, the answer mentions neither "previous" nor "context"
(case-insensitively), and the question contains a cue word, prefix the answer
with "Based on our conversation, ". -/
def contextualize_answer (context : List Turn) (question answer : String) :
    String :=
  if context ≠ [] ∧ pyIn "previous" (strLower answer) = false ∧
      pyIn "context" (strLower answer) = false then
    if cue_words.any (fun w => pyIn w (strLower question)) then
      "Based on our conversation, " ++ answer
    else answer
  else answer

/-! ### Basic facts about the Python string primitives -/

theorem rfindAux_of_le {s : List Char} {a' b : Nat} (h : b ≤ a') :
    rfindAux s a' b = -1 := by
  induction b with
  | zero => rfl
  | succ b ih =>
    have hc : ¬(a' ≤ b ∧ s.getD b 'x' = ' ') := fun ⟨h1, _⟩ => by omega
    rw [rfindAux, if_neg hc]
    exact ih (Nat.le_of_succ_le h)

theorem neg_one_le_rfindAux (s : List Char) (a' : Nat) :
    ∀ b, -1 ≤ rfindAux s a' b := by
  intro b
  induction b with
  | zero => simp [rfindAux]
  | succ b ih =>
    rw [rfindAux]
    split
    · omega
    · exact ih

theorem rfindAux_spec {s : List Char} {a' b j : Nat}
    (h : rfindAux s a' b = (j : Int)) :
    a' ≤ j ∧ j < b ∧ s.getD j 'x' = ' ' := by
  induction b with
  | zero => rw [rfindAux] at h; omega
  | succ b ih =>
    rw [rfindAux] at h
    split at h
    · have : j = b := by omega
      subst this
      exact ⟨by omega, by omega, by tauto⟩
    · have := ih h
      exact ⟨this.1, by omega, this.2.2⟩

theorem le_rfindAux {s : List Char} {a' b k : Nat}
    (h1 : a' ≤ k) (h2 : k < b) (h3 : s.getD k 'x' = ' ') :
    (k : Int) ≤ rfindAux s a' b := by
  induction b with
  | zero => omega
  | succ b ih =>
    rw [rfindAux]
    split
    · exact_mod_cast by omega
    · rcases Nat.lt_succ_iff_lt_or_eq.mp h2 with h | h
      · exact ih h
      · subst h; tauto

theorem rfindAux_cases (s : List Char) (a' b : Nat) :
    rfindAux s a' b = -1 ∨ ∃ j : Nat, rfindAux s a' b = (j : Int) := by
  rcases le_or_lt 0 (rfindAux s a' b) with h | h
  · exact Or.inr ⟨(rfindAux s a' b).toNat, by omega⟩
  · have := neg_one_le_rfindAux s a' b
    exact Or.inl (by omega)

theorem normIdx_of_nonneg {n : Nat} {i : Int} (h0 : 0 ≤ i) (h1 : i ≤ (n : Int)) :
    normIdx n i = i.toNat := by
  rw [normIdx, if_neg (by omega)]
  omega

theorem normIdx_of_neg {n : Nat} {i : Int} (h : i < 0) :
    normIdx n i = ((n : Int) + i).toNat := by
  rw [normIdx, if_pos h]

theorem normIdx_le (n : Nat) (i : Int) : normIdx n i ≤ n := by
  rw [normIdx]
  split <;> omega

theorem pySlice_length (s : List Char) (a b : Int) :
    (pySlice s a b).length ≤ normIdx s.length b - normIdx s.length a := by
  simp only [pySlice, List.length_drop, List.length_take]
  omega

theorem pySlice_eq_nil {s : List Char} {a b : Int}
    (h : normIdx s.length b ≤ normIdx s.length a) : pySlice s a b = [] := by
  apply List.eq_nil_of_length_eq_zero
  have := pySlice_length s a b
  omega

theorem pyStrip_length_le (s : List Char) : (pyStrip s).length ≤ s.length := by
  simp only [pyStrip, List.length_reverse]
  calc ((s.dropWhile isWS).reverse.dropWhile isWS).length
      ≤ (s.dropWhile isWS).reverse.length :=
        (List.dropWhile_suffix _).sublist.length_le
    _ = (s.dropWhile isWS).length := List.length_reverse _
    _ ≤ s.length := (List.dropWhile_suffix _).sublist.length_le

/-! ### Step equations for the chunking loop -/

theorem chunkLoop_zero_lt {text : List Char} {cs ov : Nat} {s : Int} {cid : Nat}
    {acc : List Chunk} (h : s < (text.length : Int)) :
    chunkLoop text cs ov 0 s cid acc = none := by
  rw [chunkLoop, if_pos h]

theorem chunkLoop_zero_ge {text : List Char} {cs ov : Nat} {s : Int} {cid : Nat}
    {acc : List Chunk} (h : ¬ s < (text.length : Int)) :
    chunkLoop text cs ov 0 s cid acc = some acc := by
  rw [chunkLoop, if_neg h]

theorem chunkLoop_succ_lt {text : List Char} {cs ov f : Nat} {s : Int} {cid : Nat}
    {acc : List Chunk} (h : s < (text.length : Int)) :
    chunkLoop text cs ov (f + 1) s cid acc =
      chunkLoop text cs ov f (chunkNext text cs ov s)
        (if chunkPiece text cs s ≠ [] then cid + 1 else cid)
        (if chunkPiece text cs s ≠ [] then
          acc ++ [mkChunk cid (chunkPiece text cs s) s (chunkEnd text cs s)]
         else acc) := by
  rw [chunkLoop, if_pos h]

theorem chunkLoop_succ_ge {text : List Char} {cs ov f : Nat} {s : Int} {cid : Nat}
    {acc : List Chunk} (h : ¬ s < (text.length : Int)) :
    chunkLoop text cs ov (f + 1) s cid acc = some acc := by
  rw [chunkLoop, if_neg h]

/-- If a set of start positions is closed under `chunkNext` and stays below
`len(text)`, the loop started inside it never exits: the `while` loop diverges. -/
theorem chunkLoop_none_of_invariant {text : List Char} {cs ov : Nat}
    (P : Int → Prop)
    (hP : ∀ s, P s → s < (text.length : Int) ∧ P (chunkNext text cs ov s)) :
    ∀ f s cid acc, P s → chunkLoop text cs ov f s cid acc = none := by
  intro f
  induction f with
  | zero => intro s cid acc hs; exact chunkLoop_zero_lt (hP s hs).1
  | succ f ih =>
    intro s cid acc hs
    rw [chunkLoop_succ_lt (hP s hs).1]
    exact ih _ _ _ (hP s hs).2

/-! ### Behaviour of one iteration at a negative `start`

`start = end - overlap` can become negative.  While it is negative (and
`chunk_size ≤ len(text)`, `-1 ≤ start + chunk_size/2`), `rfind` sees an empty
range, the slice `text[start:end]` is empty, and `start` just advances by
`chunk_size - overlap`. -/

theorem nonneg_add_cs_of_half {cs : Nat} {r : Int}
    (hc2 : -1 ≤ r + ((cs / 2 : Nat) : Int)) (hcs1 : 0 < cs) :
    0 ≤ r + (cs : Int) := by
  have : cs / 2 < cs := Nat.div_lt_self hcs1 one_lt_two
  omega

theorem pyRfindSpace_of_neg {text : List Char} {cs : Nat} {r : Int}
    (hr : r < 0) (hcs : (cs : Int) ≤ (text.length : Int))
    (hnn : 0 ≤ r + (cs : Int)) :
    pyRfindSpace text r (r + (cs : Int)) = -1 := by
  rw [pyRfindSpace]
  apply rfindAux_of_le
  rw [normIdx_of_neg hr, normIdx_of_nonneg hnn (by omega)]
  omega

theorem chunkEnd_of_neg {text : List Char} {cs : Nat} {r : Int}
    (hr : r < 0) (hcs : (cs : Int) ≤ (text.length : Int))
    (hc2 : -1 ≤ r + ((cs / 2 : Nat) : Int)) (hcs1 : 0 < cs) :
    chunkEnd text cs r = r + (cs : Int) := by
  rw [chunkEnd]
  have hlt : r + (cs : Int) < (text.length : Int) := by omega
  rw [if_pos hlt,
      pyRfindSpace_of_neg hr hcs (nonneg_add_cs_of_half hc2 hcs1),
      if_neg (by omega)]

theorem chunkNext_of_neg {text : List Char} {cs ov : Nat} {r : Int}
    (hr : r < 0) (hcs : (cs : Int) ≤ (text.length : Int))
    (hc2 : -1 ≤ r + ((cs / 2 : Nat) : Int)) (hcs1 : 0 < cs) :
    chunkNext text cs ov r = r + ((cs : Int) - (ov : Int)) := by
  rw [chunkNext, chunkEnd_of_neg hr hcs hc2 hcs1, if_pos (by omega)]
  ring

theorem chunkPiece_of_neg {text : List Char} {cs : Nat} {r : Int}
    (hr : r < 0) (hcs : (cs : Int) ≤ (text.length : Int))
    (hc2 : -1 ≤ r + ((cs / 2 : Nat) : Int)) (hcs1 : 0 < cs) :
    chunkPiece text cs r = [] := by
  have hnn : 0 ≤ r + (cs : Int) := nonneg_add_cs_of_half hc2 hcs1
  rw [chunkPiece, chunkEnd_of_neg hr hcs hc2 hcs1]
  rw [pySlice_eq_nil, pyStrip]
  · rfl
  · rw [normIdx_of_neg hr, normIdx_of_nonneg hnn (by omega)]
    omega

/-! ### The word boundary is stable under shifting the window left

If `wb` is the word boundary `rfind` found for the window `[s, s+cs)` and a new
window `[t, t+cs)` with `0 ≤ t ≤ s` still contains `wb`, then `rfind` on the
new window finds the same `wb`.  This is the engine behind the divergence of
`chunk_text` whenever `start` ever moves backwards. -/

theorem pyRfindSpace_window_eq {text : List Char} {cs : Nat} {s t wb : Int}
    (hs : 0 ≤ s) (hsw : s + (cs : Int) < (text.length : Int))
    (hr : pyRfindSpace text s (s + (cs : Int)) = wb)
    (ht0 : 0 ≤ t) (hts : t ≤ s) (htwb : t ≤ wb) (hwbt : wb < t + (cs : Int)) :
    pyRfindSpace text t (t + (cs : Int)) = wb := by
  have hn : 0 ≤ (text.length : Int) := by positivity
  rw [pyRfindSpace, normIdx_of_nonneg hs (by omega),
      normIdx_of_nonneg (by omega : (0:Int) ≤ s + (cs : Int)) (by omega)] at hr
  rw [pyRfindSpace, normIdx_of_nonneg ht0 (by omega),
      normIdx_of_nonneg (by omega : (0:Int) ≤ t + (cs : Int)) (by omega)]
  have hwb0 : 0 ≤ wb := le_trans ht0 htwb
  have hk : rfindAux text s.toNat (s + (cs : Int)).toNat = (wb.toNat : Int) := by
    rw [hr]; omega
  obtain ⟨hk1, hk2, hk3⟩ := rfindAux_spec hk
  have hlow : (wb.toNat : Int) ≤ rfindAux text t.toNat (t + (cs : Int)).toNat :=
    le_rfindAux (by omega) (by omega) hk3
  rcases rfindAux_cases text t.toNat (t + (cs : Int)).toNat with hc | ⟨j, hj⟩
  · omega
  · obtain ⟨hj1, hj2, hj3⟩ := rfindAux_spec hj
    have hhigh : (j : Int) ≤ rfindAux text s.toNat (s + (cs : Int)).toNat :=
      le_rfindAux (by omega) (by omega) hj3
    rw [hj]
    omega

/-- The end position `wb` found via an adjusted window at `s` is found again by
any window at `t ≤ s` that still contains it beyond its midpoint, so
`start` jumps to `wb - overlap` from `t` as well. -/
theorem chunkNext_shift {text : List Char} {cs ov : Nat} {s wb t : Int}
    (hs : 0 ≤ s) (hsw : s + (cs : Int) < (text.length : Int))
    (hr : pyRfindSpace text s (s + (cs : Int)) = wb)
    (ht0 : 0 ≤ t) (hts : t ≤ s)
    (hcondt : t + ((cs / 2 : Nat) : Int) < wb) (hwbt : wb < t + (cs : Int)) :
    chunkNext text cs ov t = wb - (ov : Int) := by
  have hwb0 : 0 ≤ wb := by omega
  have hwb_lt : wb < s + (cs : Int) := by
    have hk : rfindAux text (normIdx text.length s)
        (normIdx text.length (s + (cs : Int))) = (wb.toNat : Int) := by
      rw [← pyRfindSpace]; omega
    have := (rfindAux_spec hk).2.1
    have hb := normIdx_le text.length (s + (cs : Int))
    rw [normIdx_of_nonneg (by omega : (0:Int) ≤ s + (cs : Int)) (by omega)] at this
    omega
  have hw : pyRfindSpace text t (t + (cs : Int)) = wb :=
    pyRfindSpace_window_eq hs hsw hr ht0 hts (by omega) hwbt
  rw [chunkNext, chunkEnd]
  have hlt : t + (cs : Int) < (text.length : Int) := by omega
  simp only [if_pos hlt, hw, if_pos (show wb > t + ((cs / 2 : Nat) : Int) by omega)]
  rw [if_pos (show wb < (text.length : Int) by omega)]

/-- If the word-boundary adjustment ever moves `start` strictly backwards to a
still-nonnegative position, that position is a fixed point of the loop: the
loop never exits. -/
theorem decrease_divergence {text : List Char} {cs ov : Nat} {s wb : Int}
    (hov : ov < cs)
    (hs : 0 ≤ s) (hsw : s + (cs : Int) < (text.length : Int))
    (hr : pyRfindSpace text s (s + (cs : Int)) = wb)
    (hcond : s + ((cs / 2 : Nat) : Int) < wb)
    (ht0 : 0 ≤ wb - (ov : Int)) (hdec : wb - (ov : Int) < s) :
    ∀ f cid acc, chunkLoop text cs ov f (wb - (ov : Int)) cid acc = none := by
  intro f cid acc
  apply chunkLoop_none_of_invariant (P := fun r => r = wb - (ov : Int)) _ f _ cid acc rfl
  rintro r rfl
  refine ⟨by omega, ?_⟩
  exact chunkNext_shift hs hsw hr ht0 (by omega) (by omega) (by omega)

/-- If the word-boundary adjustment moves `start` below zero and the first
nonnegative position of the recovery climb (`(wb - ov) mod (cs - ov)`) is
still `≤ s`, the loop cycles forever: climb to that position, re-find the same
word boundary `wb`, jump back to `wb - ov`, repeat. -/
theorem excursion_divergence {text : List Char} {cs ov : Nat} {s wb : Int}
    (hov : ov < cs)
    (hs : 0 ≤ s) (hsw : s + (cs : Int) < (text.length : Int))
    (hr : pyRfindSpace text s (s + (cs : Int)) = wb)
    (hcond : s + ((cs / 2 : Nat) : Int) < wb)
    (hneg : wb - (ov : Int) < 0)
    (hu0 : (wb - (ov : Int)) % ((cs : Int) - (ov : Int)) ≤ s) :
    ∀ f cid acc, chunkLoop text cs ov f (wb - (ov : Int)) cid acc = none := by
  intro f cid acc
  have hwb0 : 0 ≤ wb := by omega
  have hd : 0 < (cs : Int) - (ov : Int) := by omega
  have hcs1 : 0 < cs := by omega
  have hdiv2 : 2 * (cs / 2) + 1 ≥ cs := by omega
  have ht₁c : 0 ≤ (wb - (ov : Int)) + ((cs / 2 : Nat) : Int) := by omega
  have hu0nn : 0 ≤ (wb - (ov : Int)) % ((cs : Int) - (ov : Int)) :=
    Int.emod_nonneg _ (by omega)
  apply chunkLoop_none_of_invariant
    (P := fun r =>
      (r < 0 ∧ r % ((cs : Int) - (ov : Int)) =
          (wb - (ov : Int)) % ((cs : Int) - (ov : Int)) ∧
        0 ≤ r + ((cs / 2 : Nat) : Int)) ∨
      r = (wb - (ov : Int)) % ((cs : Int) - (ov : Int)))
    _ f _ cid acc (Or.inl ⟨hneg, rfl, ht₁c⟩)
  rintro r (⟨hr0, hmod, hc2⟩ | rfl)
  · refine ⟨by omega, ?_⟩
    rw [chunkNext_of_neg hr0 (by omega) (by omega) hcs1]
    rcases lt_or_le (r + ((cs : Int) - (ov : Int))) 0 with hlt | hge
    · refine Or.inl ⟨hlt, ?_, by omega⟩
      rw [← hmod]
      conv_lhs => rw [show r + ((cs : Int) - (ov : Int)) =
        r + ((cs : Int) - (ov : Int)) * 1 by ring]
      rw [Int.add_mul_emod_self_left]
    · refine Or.inr ?_
      have h1 : (r + ((cs : Int) - (ov : Int))) % ((cs : Int) - (ov : Int)) =
          r + ((cs : Int) - (ov : Int)) :=
        Int.emod_eq_of_lt hge (by omega)
      have h3 : (r + ((cs : Int) - (ov : Int))) % ((cs : Int) - (ov : Int)) =
          r % ((cs : Int) - (ov : Int)) := by
        conv_lhs => rw [show r + ((cs : Int) - (ov : Int)) =
          r + ((cs : Int) - (ov : Int)) * 1 by ring]
        rw [Int.add_mul_emod_self_left]
      rw [← hmod, ← h3, h1]
  · refine ⟨by omega, ?_⟩
    have hnx : chunkNext text cs ov
        ((wb - (ov : Int)) % ((cs : Int) - (ov : Int))) = wb - (ov : Int) :=
      chunkNext_shift hs hsw hr hu0nn hu0 (by omega) (by omega)
    rw [hnx]
    exact Or.inl ⟨hneg, rfl, ht₁c⟩

theorem chain_le_append_singleton {l : List Int} {a : Int}
    (hc : List.Chain' (· ≤ ·) l) (hb : ∀ x ∈ l, x ≤ a) :
    List.Chain' (· ≤ ·) (l ++ [a]) := by
  rw [List.chain'_append]
  refine ⟨hc, List.chain'_singleton a, ?_⟩
  intro x hx y hy
  simp only [List.head?_cons, Option.mem_def, Option.some.injEq] at hy
  subst hy
  exact hb x (List.mem_of_mem_getLast? hx)

/-- The chunk text recorded at a nonnegative `start` has at most `chunk_size`
characters: the window `[start, end)` spans at most `chunk_size` positions. -/
theorem chunkPiece_length_of_nonneg {text : List Char} {cs : Nat} {s : Int}
    (hs : 0 ≤ s) : (chunkPiece text cs s).length ≤ cs := by
  refine le_trans (pyStrip_length_le _) (le_trans (pySlice_length _ _ _) ?_)
  have hdiff : normIdx text.length (s + (cs : Int)) - normIdx text.length s ≤ cs := by
    simp only [normIdx, Nat.min_def]
    split_ifs <;> omega
  rw [chunkEnd]
  split
  · split
    case isTrue h1 h2 =>
      rcases rfindAux_cases text (normIdx text.length s)
          (normIdx text.length (s + (cs : Int))) with hc | ⟨j, hj⟩
      · rw [pyRfindSpace, hc] at h2
        omega
      · obtain ⟨hj1, hj2, _⟩ := rfindAux_spec hj
        have hb := normIdx_le text.length (s + (cs : Int))
        rw [pyRfindSpace, hj]
        rw [normIdx_of_nonneg (by omega) (by omega)]
        omega
    case isFalse h1 h2 => exact hdiff
  · exact hdiff

/-- Main loop lemma: whenever `chunk_text`'s loop exits, the recorded chunks'
`start_pos` are non-decreasing and every chunk text has at most `chunk_size`
characters.  Any strict backward move of `start` makes the loop diverge
(`decrease_divergence` / `excursion_divergence`), so an exiting run only ever
moves `start` forward past each recorded position. -/
theorem chunkLoop_sound {text : List Char} {cs ov : Nat} (hov : ov < cs) :
    ∀ f (s : Int) cid acc res, chunkInv text cs ov s acc →
      (∀ c ∈ acc, c.text.length ≤ cs) →
      chunkLoop text cs ov f s cid acc = some res →
      List.Chain' (· ≤ ·) (res.map Chunk.start_pos) ∧
        ∀ c ∈ res, c.text.length ≤ cs := by
  intro f
  induction f with
  | zero =>
    intro s cid acc res hinv hlen h
    by_cases hs : s < (text.length : Int)
    · rw [chunkLoop_zero_lt hs] at h; cases h
    · rw [chunkLoop_zero_ge hs] at h
      cases h
      exact ⟨hinv.1, hlen⟩
  | succ f ih =>
    intro s cid acc res hinv hlen h
    obtain ⟨hchain, hnn, hng⟩ := hinv
    by_cases hs : s < (text.length : Int)
    case neg =>
      rw [chunkLoop_succ_ge hs] at h
      cases h
      exact ⟨hchain, hlen⟩
    case pos =>
    rw [chunkLoop_succ_lt hs] at h
    have hdiv2 : 2 * (cs / 2) + 1 ≥ cs ∧ cs / 2 ≤ cs := by omega
    rcases le_or_lt 0 s with hs0 | hs0
    · -- nonnegative start: chunks recorded here sit at `start_pos = s`
      have hrecs := hnn hs0
      have hchain' : List.Chain' (· ≤ ·)
          ((if chunkPiece text cs s ≠ [] then
              acc ++ [mkChunk cid (chunkPiece text cs s) s (chunkEnd text cs s)]
            else acc).map Chunk.start_pos) := by
        split
        · rw [List.map_append]
          exact chain_le_append_singleton hchain
            (by
              intro x hx
              obtain ⟨c, hc, rfl⟩ := List.mem_map.mp hx
              exact hrecs c hc)
        · exact hchain
      have hb' : ∀ c ∈ (if chunkPiece text cs s ≠ [] then
              acc ++ [mkChunk cid (chunkPiece text cs s) s (chunkEnd text cs s)]
            else acc), c.start_pos ≤ s := by
        split
        · intro c hc
          rcases List.mem_append.mp hc with hc | hc
          · exact hrecs c hc
          · simp only [List.mem_singleton] at hc
            subst hc
            exact le_refl s
        · exact hrecs
      have hlen' : ∀ c ∈ (if chunkPiece text cs s ≠ [] then
              acc ++ [mkChunk cid (chunkPiece text cs s) s (chunkEnd text cs s)]
            else acc), c.text.length ≤ cs := by
        split
        · intro c hc
          rcases List.mem_append.mp hc with hc | hc
          · exact hlen c hc
          · simp only [List.mem_singleton] at hc
            subst hc
            exact chunkPiece_length_of_nonneg hs0
        · exact hlen
      by_cases he : chunkEnd text cs s < (text.length : Int)
      case neg =>
        -- window reached the end of the text: next start is len(text), loop exits
        have hnx : chunkNext text cs ov s = (text.length : Int) := by
          rw [chunkNext, if_neg he]
        rw [hnx] at h
        refine ih _ _ _ _ ⟨hchain', ?_, ?_⟩ hlen' h
        · intro _ c hc
          exact le_trans (hb' c hc) (le_of_lt hs)
        · intro hcon
          omega
      case pos =>
      have hnx : chunkNext text cs ov s = chunkEnd text cs s - (ov : Int) := by
        rw [chunkNext, if_pos he]
      rcases le_or_lt s (chunkEnd text cs s - (ov : Int)) with hinc | hdec
      · -- start moves forward
        rw [hnx] at h
        refine ih _ _ _ _ ⟨hchain', ?_, ?_⟩ hlen' h
        · intro _ c hc
          exact le_trans (hb' c hc) hinc
        · intro hcon
          omega
      · -- start moves strictly backwards: only possible through the
        -- word-boundary adjustment, and then the loop diverges unless the
        -- negative excursion re-enters strictly beyond s
        have hadj : chunkEnd text cs s = pyRfindSpace text s (s + (cs : Int)) ∧
            s + (cs : Int) < (text.length : Int) ∧
            s + ((cs / 2 : Nat) : Int) < pyRfindSpace text s (s + (cs : Int)) := by
          rw [chunkEnd] at hdec ⊢
          by_cases h1 : s + (cs : Int) < (text.length : Int)
          · rw [if_pos h1] at hdec ⊢
            by_cases h2 : pyRfindSpace text s (s + (cs : Int)) >
                s + ((cs / 2 : Nat) : Int)
            · rw [if_pos h2] at hdec ⊢
              exact ⟨rfl, h1, h2⟩
            · rw [if_neg h2] at hdec
              omega
          · rw [if_neg h1] at hdec
            omega
        obtain ⟨he_eq, hw_lt, hcond⟩ := hadj
        rcases le_or_lt 0 (chunkEnd text cs s - (ov : Int)) with hnn2 | hneg2
        · -- backward jump to a nonnegative position: fixed point, diverges
          exfalso
          have := decrease_divergence hov hs0 hw_lt rfl
            (by omega) (by omega) (by omega) f
            (if chunkPiece text cs s ≠ [] then cid + 1 else cid)
            (if chunkPiece text cs s ≠ [] then
              acc ++ [mkChunk cid (chunkPiece text cs s) s (chunkEnd text cs s)]
             else acc)
          rw [he_eq] at hnx
          rw [hnx, this] at h
          cases h
        · rcases le_or_lt
            ((chunkEnd text cs s - (ov : Int)) % ((cs : Int) - (ov : Int))) s
            with hle | hgt
          · -- excursion re-enters at or before s: cycle, diverges
            exfalso
            have := excursion_divergence hov hs0 hw_lt rfl
              (by omega) (by omega) (by rw [← he_eq]; omega) f
              (if chunkPiece text cs s ≠ [] then cid + 1 else cid)
              (if chunkPiece text cs s ≠ [] then
                acc ++ [mkChunk cid (chunkPiece text cs s) s (chunkEnd text cs s)]
               else acc)
            rw [he_eq] at hnx
            rw [hnx, this] at h
            cases h
          · -- excursion re-enters strictly beyond s
            rw [hnx] at h
            refine ih _ _ _ _ ⟨hchain', ?_, ?_⟩ hlen' h
            · intro hcon c hc
              omega
            · intro _
              refine ⟨by omega, by omega, ?_⟩
              intro c hc
              exact lt_of_le_of_lt (hb' c hc) hgt
    · -- negative start: nothing is recorded, start climbs by cs - ov
      obtain ⟨hcsn, hc2, hbound⟩ := hng hs0
      have hcs1 : 0 < cs := by omega
      have hp : chunkPiece text cs s = [] :=
        chunkPiece_of_neg hs0 (le_of_lt hcsn) (by omega) hcs1
      have hnx : chunkNext text cs ov s = s + ((cs : Int) - (ov : Int)) :=
        chunkNext_of_neg hs0 (le_of_lt hcsn) (by omega) hcs1
      rw [hnx, if_neg (by simp [hp]), if_neg (by simp [hp])] at h
      have hmodstep : (s + ((cs : Int) - (ov : Int))) % ((cs : Int) - (ov : Int)) =
          s % ((cs : Int) - (ov : Int)) := by
        conv_lhs => rw [show s + ((cs : Int) - (ov : Int)) =
          s + ((cs : Int) - (ov : Int)) * 1 by ring]
        rw [Int.add_mul_emod_self_left]
      rcases lt_or_le (s + ((cs : Int) - (ov : Int))) 0 with hneg2 | hnn2
      · refine ih _ _ _ _ ⟨hchain, ?_, ?_⟩ hlen h
        · intro hcon _ _
          omega
        · intro _
          refine ⟨hcsn, by omega, ?_⟩
          intro c hc
          rw [hmodstep]
          exact hbound c hc
      · refine ih _ _ _ _ ⟨hchain, ?_, ?_⟩ hlen h
        · intro _ c hc
          have h1 : (s + ((cs : Int) - (ov : Int))) % ((cs : Int) - (ov : Int)) =
              s + ((cs : Int) - (ov : Int)) :=
            Int.emod_eq_of_lt hnn2 (by omega)
          have := hbound c hc
          omega
        · intro hcon
          omega

/-! ### Claim theorems about the chunker -/

/-- Claim C2 (failing part): `chunk_text` does NOT terminate for every
`chunk_size > overlap ≥ 0`.  On the 27-character input
`"aaaaaa bbbbbbbbbbbbbbbbbbbb"` with `chunk_size=10, overlap=9` (which satisfy
`chunk_size > overlap ≥ 0`), the loop revisits `start = 0` forever
(`0 → -3 → -2 → -1 → 0 → ...`): no amount of fuel makes the loop exit. -/
theorem chunk_text_infinite_loop :
    ∀ fuel, chunkTextFuel (String.toList "aaaaaa bbbbbbbbbbbbbbbbbbbb") 10 9 fuel
      = none := by
  intro fuel
  rw [chunkTextFuel, if_neg (by decide)]
  refine chunkLoop_none_of_invariant
    (P := fun s => s = 0 ∨ s = -3 ∨ s = -2 ∨ s = -1) ?_ fuel 0 1 [] (Or.inl rfl)
  rintro s (rfl | rfl | rfl | rfl) <;> exact ⟨by decide, by decide⟩

/-- Complement to the C2 bug: termination DOES hold whenever
`overlap ≤ chunk_size / 2` (which includes the code's default
`chunk_size=1000, overlap=200`): every iteration then advances `start` by at
least one position, so `len(text) + 1` iterations always suffice. -/
theorem chunkLoop_some_of_small_overlap {text : List Char} {cs ov : Nat}
    (hov : ov < cs) (hsmall : ov ≤ cs / 2) :
    ∀ (f : Nat) (s : Int) cid acc, 0 ≤ s → (text.length : Int) ≤ s + (f : Int) →
      (chunkLoop text cs ov f s cid acc).isSome := by
  intro f
  induction f with
  | zero =>
    intro s cid acc hs hf
    rw [chunkLoop_zero_ge (by omega)]
    rfl
  | succ f ih =>
    intro s cid acc hs hf
    by_cases hlt : s < (text.length : Int)
    case neg =>
      rw [chunkLoop_succ_ge hlt]
      rfl
    case pos =>
    rw [chunkLoop_succ_lt hlt]
    have hstep : s + 1 ≤ chunkNext text cs ov s ∨
        chunkNext text cs ov s = (text.length : Int) := by
      rw [chunkNext]
      split
      case isFalse h => exact Or.inr rfl
      case isTrue h =>
        left
        rw [chunkEnd] at h ⊢
        split at h
        case isFalse h1 => rw [if_neg h1]; omega
        case isTrue h1 =>
          rw [if_pos h1]
          split at h
          case isTrue h2 =>
            rw [if_pos h2]
            have : 2 * (cs / 2) ≤ cs := by omega
            omega
          case isFalse h2 => rw [if_neg h2]; omega
    rcases hstep with h | h
    · exact ih (chunkNext text cs ov s) _ _ (by omega) (by omega)
    · rw [h]
      exact ih (text.length : Int) _ _ (by positivity) (by omega)

/-- Termination: `chunk_text` exits within `len(text) + 1` iterations whenever
`overlap ≤ chunk_size / 2 < chunk_size`. -/
theorem chunkText_terminates_of_small_overlap (text : List Char) (cs ov : Nat)
    (hov : ov < cs) (hsmall : ov ≤ cs / 2) :
    chunkTerminates text cs ov := by
  refine ⟨text.length + 1, ?_⟩
  rw [chunkTextFuel]
  split
  · rfl
  · exact chunkLoop_some_of_small_overlap hov hsmall _ 0 1 [] le_rfl (by omega)

/-- Claim C3: whenever `chunk_text` returns (for any `overlap < chunk_size`),
the returned chunks' `start_pos` values are monotonically non-decreasing in
list order.  (The Scenario 1 instance, where they strictly increase, is the
witness theorem.) -/
theorem chunk_text_start_pos_mono (text : List Char) (cs ov fuel : Nat)
    (chunks : List Chunk) (hov : ov < cs)
    (h : chunkTextFuel text cs ov fuel = some chunks) :
    List.Chain' (· ≤ ·) (chunks.map Chunk.start_pos) := by
  rw [chunkTextFuel] at h
  split at h
  · cases h; simp
  · exact (chunkLoop_sound hov fuel 0 1 [] chunks
      ⟨by simp, by simp, fun hcon => absurd hcon (by norm_num)⟩
      (fun c hc => absurd hc (List.not_mem_nil c)) h).1

set_option maxRecDepth 10000 in
/-- Witness for C3: the Scenario 1 input with `chunk_size=100, overlap=20`
yields three chunks whose `start_pos` (0, 75, 154) and `end_pos`
(95, 174, 254) strictly increase. -/
theorem chunk_text_start_pos_mono_witness :
    (20 < 100 ∧ chunkTextFuel scenario1Text 100 20 20 = some scenario1Chunks) ∧
    List.Chain' (· ≤ ·) (scenario1Chunks.map Chunk.start_pos) ∧
    scenario1Chunks.map Chunk.start_pos = [0, 75, 154] ∧
    scenario1Chunks.map Chunk.end_pos = [95, 174, 254] ∧
    List.Chain' (· < ·) [(0 : Int), 75, 154] ∧
    List.Chain' (· < ·) [(95 : Int), 174, 254] :=
  ⟨⟨by norm_num, by decide⟩,
   chunk_text_start_pos_mono scenario1Text 100 20 20 scenario1Chunks
     (by norm_num) (by decide),
   by decide, by decide,
   by simp [List.chain'_cons], by simp [List.chain'_cons]⟩

/-- Claim C8: every chunk produced by `chunk_text` with `chunk_size = S` and
`overlap < S` has (trimmed) text of at most `S` characters. -/
theorem chunk_text_length_le (text : List Char) (cs ov fuel : Nat)
    (chunks : List Chunk) (hov : ov < cs)
    (h : chunkTextFuel text cs ov fuel = some chunks) :
    ∀ c ∈ chunks, c.text.length ≤ cs := by
  rw [chunkTextFuel] at h
  split at h
  · cases h; simp
  · exact (chunkLoop_sound hov fuel 0 1 [] chunks
      ⟨by simp, by simp, fun hcon => absurd hcon (by norm_num)⟩
      (fun c hc => absurd hc (List.not_mem_nil c)) h).2

set_option maxRecDepth 10000 in
/-- Witness for C8: on the Scenario 1 input with `chunk_size=100, overlap=20`
all chunk texts have at most 100 characters (their lengths are 95, 99, 77). -/
theorem chunk_text_length_le_witness :
    (20 < 100 ∧ chunkTextFuel scenario1Text 100 20 20 = some scenario1Chunks) ∧
    (∀ c ∈ scenario1Chunks, c.text.length ≤ 100) ∧
    scenario1Chunks.map (fun c => c.text.length) = [95, 99, 77] :=
  ⟨⟨by norm_num, by decide⟩,
   chunk_text_length_le scenario1Text 100 20 20 scenario1Chunks
     (by norm_num) (by decide),
   by decide⟩

/-- Claim C10: `end_pos` is not clamped to the text length.  On the
10-character input `"abcdefghij"` with `chunk_size=8, overlap=3`, the final
chunk has `start_pos = 5` and `end_pos = 13 = 5 + 8 > 10 = len(text)`, while
its actual text `"fghij"` has only 5 characters. -/
theorem chunk_text_end_pos_overshoot :
    chunkTextFuel (String.toList "abcdefghij") 8 3 20 =
      some [mkChunk 1 (String.toList "abcdefgh") 0 8,
            mkChunk 2 (String.toList "fghij") 5 13] ∧
    (String.toList "abcdefghij").length = 10 ∧
    (13 : Int) = 5 + 8 ∧ (10 : Int) < 13 ∧
    (String.toList "fghij").length = 5 := by
  refine ⟨by decide, by decide, by norm_num, by norm_num, by decide⟩

/-! ### Vector index: id stability and duplicates (claim C1) -/

theorem chromaAdd_id_mem : ∀ (batch st : List (String × String)) (x : String),
    x ∈ st.map Prod.fst → x ∈ (chromaAdd st batch).map Prod.fst := by
  intro batch
  induction batch with
  | nil => intro st x hx; exact hx
  | cons p rest ih =>
    intro st x hx
    rw [chromaAdd]
    apply ih
    split
    · exact hx
    · rw [List.map_append]
      exact List.mem_append_left _ hx

theorem chromaAdd_batch_mem : ∀ (batch st : List (String × String)),
    ∀ p ∈ batch, p.1 ∈ (chromaAdd st batch).map Prod.fst := by
  intro batch
  induction batch with
  | nil => intro st p hp; cases hp
  | cons q rest ih =>
    intro st p hp
    rw [chromaAdd]
    rcases List.mem_cons.mp hp with rfl | hp
    · apply chromaAdd_id_mem
      split
      case isTrue h => exact h
      case isFalse h =>
        rw [List.map_append]
        exact List.mem_append_right _ (by simp)
    · exact ih _ p hp

theorem chromaAdd_of_mem : ∀ (batch st : List (String × String)),
    (∀ p ∈ batch, p.1 ∈ st.map Prod.fst) → chromaAdd st batch = st := by
  intro batch
  induction batch with
  | nil => intro st _; rfl
  | cons q rest ih =>
    intro st h
    rw [chromaAdd, if_pos (h q (List.mem_cons_self q rest))]
    exact ih st (fun p hp => h p (List.mem_cons_of_mem q hp))

set_option maxRecDepth 100000 in
/-- Claim C1 counterexample: the id is NOT derived from the chunk's content
alone — it hashes the batch position too.  The same content `"X"` gets
different ids at batch positions 0 and 1, so adding `"X"` a second time (as
part of the batch `["Y", "X"]`) creates a duplicate: `total_chunks` grows from
1 to 3, and the content `"X"` is stored twice. -/
theorem add_documents_id_not_content_only :
    doc_id 0 "X" ≠ doc_id 1 "X" ∧
    total_chunks (add_documents [] ["X"]) = 1 ∧
    total_chunks (add_documents (add_documents [] ["X"]) ["Y", "X"]) = 3 ∧
    ((add_documents (add_documents [] ["X"]) ["Y", "X"]).map Prod.snd).count "X"
      = 2 := by
  refine ⟨by decide, by decide, by decide, by decide⟩

/-- Claim C1 amended: the id is a hash of the first 100 characters of the
content together with the chunk's batch position, so indexing is idempotent
batch-wise: re-submitting the identical batch reproduces the same ids and
leaves the collection (hence `getStats().total_chunks`) unchanged. -/
theorem add_documents_idempotent (st : List (String × String))
    (docs : List String) :
    add_documents (add_documents st docs) docs = add_documents st docs ∧
    total_chunks (add_documents (add_documents st docs) docs) =
      total_chunks (add_documents st docs) := by
  have h : add_documents (add_documents st docs) docs = add_documents st docs := by
    rw [add_documents, add_documents]
    exact chromaAdd_of_mem _ _ (fun p hp => chromaAdd_batch_mem _ st p hp)
  exact ⟨h, by rw [h]⟩

/-! ### Retrieval scores (claim C4) -/

theorem mem_search_similar_format :
    ∀ (docs : List String) (metas : List (List (String × String)))
      (dists : List ℚ) (r : RetrievalResult),
      r ∈ search_similar_format docs metas dists →
      ∃ d ∈ dists, r.score = 1 - d := by
  intro docs
  induction docs with
  | nil =>
    intro metas dists r h
    simp [search_similar_format, List.zipWith3] at h
  | cons doc docs ih =>
    intro metas dists r h
    cases metas with
    | nil => simp [search_similar_format, List.zipWith3] at h
    | cons m metas =>
      cases dists with
      | nil => simp [search_similar_format, List.zipWith3] at h
      | cons d dists =>
        rw [search_similar_format, List.zipWith3] at h
        rcases List.mem_cons.mp h with rfl | h
        · exact ⟨d, List.mem_cons_self d dists, rfl⟩
        · obtain ⟨d', hd', hs⟩ := ih metas dists r h
          exact ⟨d', List.mem_cons_of_mem d hd', hs⟩

/-- Claim C4 counterexample: the score is `1 - cosine_distance`, but it does
NOT lie in `[0, 1]`: cosine distance ranges over `[0, 2]` (for the opposite
unit vectors `(1,0)` and `(-1,0)` it is `2`), so the formatted score can be
`-1 < 0`. -/
theorem search_similar_score_below_zero :
    dotQ [1, 0] [1, 0] = 1 ∧ dotQ [-1, 0] [-1, 0] = 1 ∧
    cosineDistUnit [1, 0] [-1, 0] = 2 ∧
    (search_similar_format ["d"] [[]] [cosineDistUnit [1, 0] [-1, 0]]).map
        RetrievalResult.score = [-1] ∧
    ¬ (0 ≤ (-1 : ℚ)) := by
  refine ⟨?_, ?_, ?_, ?_, ?_⟩ <;>
    norm_num [dotQ, cosineDistUnit, search_similar_format, List.zipWith3,
      List.zipWith]

/-- Claim C4 amended: every returned score is `1 - cosine_distance` for the
corresponding distance, and since cosine distances lie in `[0, 2]`, scores lie
in `[-1, 1]` (1 = identical direction). -/
theorem search_similar_score_bounds (docs : List String)
    (metas : List (List (String × String))) (dists : List ℚ)
    (hd : ∀ d ∈ dists, 0 ≤ d ∧ d ≤ 2) :
    ∀ r ∈ search_similar_format docs metas dists,
      (∃ d ∈ dists, r.score = 1 - d) ∧ -1 ≤ r.score ∧ r.score ≤ 1 := by
  intro r hr
  obtain ⟨d, hdm, hs⟩ := mem_search_similar_format docs metas dists r hr
  obtain ⟨h0, h2⟩ := hd d hdm
  refine ⟨⟨d, hdm, hs⟩, ?_, ?_⟩ <;> rw [hs] <;> linarith

/-- Witness for C4 (amended): with genuine cosine distances `[0, 3/2]` the
scores are `[1, -1/2]`, inside `[-1, 1]`. -/
theorem search_similar_score_bounds_witness :
    (∀ d ∈ [(0 : ℚ), 3 / 2], 0 ≤ d ∧ d ≤ 2) ∧
    (∀ r ∈ search_similar_format ["a", "b"] [[], []] [(0 : ℚ), 3 / 2],
      (∃ d ∈ [(0 : ℚ), 3 / 2], r.score = 1 - d) ∧ -1 ≤ r.score ∧ r.score ≤ 1) ∧
    (search_similar_format ["a", "b"] [[], []] [(0 : ℚ), 3 / 2]).map
        RetrievalResult.score = [1, -1 / 2] :=
  ⟨by norm_num, search_similar_score_bounds _ _ _ (by norm_num),
   by norm_num [search_similar_format, List.zipWith3]⟩

/-! ### The orchestration layer (claims C5, C9, C7, C6) -/

/-- Claim C5: a query with `use_rag = true` against an empty index
(`search_similar` returns `[]`) with no Groq client configured returns
`success = true`, `sources = []`, and a templated answer containing the
literal query text. -/
theorem process_query_empty_index_no_backend (query : String)
    (context : List Turn) (_hq : query ≠ "") :
    (process_query none (some []) query context true).success = true ∧
    (process_query none (some []) query context true).sources = [] ∧
    ∃ pre post,
      (process_query none (some []) query context true).answer =
        pre ++ query ++ post :=
  ⟨rfl, rfl, "Processing: ", " (AI service not available)", rfl⟩

/-- Witness for C5 at the concrete query `"What is ML?"`. -/
theorem process_query_empty_index_no_backend_witness :
    ("What is ML?" ≠ "") ∧
    (process_query none (some []) "What is ML?" [] true).success = true ∧
    (process_query none (some []) "What is ML?" [] true).sources = [] ∧
    ∃ pre post,
      (process_query none (some []) "What is ML?" [] true).answer =
        pre ++ "What is ML?" ++ post :=
  ⟨by decide,
   (process_query_empty_index_no_backend "What is ML?" [] (by decide)).1,
   (process_query_empty_index_no_backend "What is ML?" [] (by decide)).2.1,
   (process_query_empty_index_no_backend "What is ML?" [] (by decide)).2.2⟩

/-- Claim C9: `process_query` returns `success = true` in every backend
condition — configured-and-answering, configured-but-raising (fallback), and
unconfigured (fallback).  This layer never signals failure through the
`success` flag. -/
theorem process_query_always_success (groq : Option (List Turn → Option String))
    (vector : Option (List RetrievalResult)) (query : String)
    (context : List Turn) (use_rag : Bool) :
    (process_query groq vector query context use_rag).success = true := by
  unfold process_query
  cases groq with
  | none => rfl
  | some complete =>
    rcases hc : complete (buildMessages query context
        (ragContext (retrievedResults vector use_rag))) with _ | ans
    · simp only [hc]
      rfl
    · simp only [hc]

/-- Claim C7: the prompt context is the system message (carrying at most 3
passages, each truncated to 300 characters and labelled "Document i: "),
then at most the 6 most recent history turns in their original order with
their role labels, then the user turn.  `pyStrTake 300` really is a
300-character-bounded truncation of the passage. -/
theorem context_assembly (query : String) (context : List Turn)
    (results : List RetrievalResult) :
    buildMessages query context (ragContext results) =
      ⟨"system", systemMsg (ragContext results)⟩ ::
        (historyMessages context ++ [⟨"user", query⟩]) ∧
    List.Sublist (historyMessages context) (takeLast 6 context) ∧
    (historyMessages context).length ≤ 6 ∧
    ragContext results = ragContext (results.take 3) ∧
    (ragEntries results).length = min results.length 3 ∧
    ∀ r ∈ results, (pyStrTake 300 r.content).data.length ≤ 300 ∧
      (pyStrTake 300 r.content).data ++ r.content.data.drop 300 =
        r.content.data := by
  refine ⟨rfl, List.filter_sublist _, ?_, ?_, ?_, ?_⟩
  · calc (historyMessages context).length
        ≤ (takeLast 6 context).length := (List.filter_sublist _).length_le
      _ ≤ 6 := by rw [takeLast]; rw [List.length_drop]; omega
  · cases results with
    | nil => rfl
    | cons a l =>
      rw [ragContext, ragContext, if_neg (by simp), if_neg (by simp),
          ragEntries, ragEntries, List.take_take, Nat.min_self]
  · simp [ragEntries, List.enum_length, List.length_take, Nat.min_comm]
  · intro r hr
    constructor
    · show (r.content.data.take 300).length ≤ 300
      rw [List.length_take]
      omega
    · exact List.take_append_drop 300 r.content.data

/-- Claim C6 counterexample: the code prefixes only when the answer contains
neither "context" NOR "previous" (case-insensitively).  With non-empty
history, the cue word "explain" in the question, and an answer lacking
"context" but containing "previous", no prefix is added. -/
theorem contextualize_answer_previous_cex :
    contextualize_answer [⟨"user", "tell me about Python"⟩] "explain more"
        "As previously discussed, yes." = "As previously discussed, yes." ∧
    pyIn "context" (strLower "As previously discussed, yes.") = false ∧
    cue_words.any (fun w => pyIn w (strLower "explain more")) = true ∧
    ([(⟨"user", "tell me about Python"⟩ : Turn)] ≠ []) ∧
    "As previously discussed, yes." ≠
      "Based on our conversation, " ++ "As previously discussed, yes." := by
  refine ⟨by decide, by decide, by decide, by decide, by decide⟩

/-- Claim C6 amended: with non-empty history, an answer containing neither the
word "context" nor the word "previous" (case-insensitive substring checks),
and a question containing an anaphoric cue word, the final answer is prefixed
with "Based on our conversation, ". -/
theorem contextualize_answer_prefixes (context : List Turn)
    (question answer : String)
    (hctx : context ≠ [])
    (hprev : pyIn "previous" (strLower answer) = false)
    (hcon : pyIn "context" (strLower answer) = false)
    (hcue : cue_words.any (fun w => pyIn w (strLower question)) = true) :
    contextualize_answer context question answer =
      "Based on our conversation, " ++ answer := by
  rw [contextualize_answer, if_pos ⟨hctx, hprev, hcon⟩, if_pos hcue]

/-- Witness for C6 (amended) at a concrete request: history of one turn,
question "explain more", answer "Sure thing.". -/
theorem contextualize_answer_prefixes_witness :
    ([(⟨"user", "what is chunking"⟩ : Turn)] ≠ [] ∧
      pyIn "previous" (strLower "Sure thing.") = false ∧
      pyIn "context" (strLower "Sure thing.") = false ∧
      cue_words.any (fun w => pyIn w (strLower "explain more")) = true) ∧
    contextualize_answer [⟨"user", "what is chunking"⟩] "explain more"
        "Sure thing." = "Based on our conversation, " ++ "Sure thing." :=
  ⟨⟨by decide, by decide, by decide, by decide⟩,
   contextualize_answer_prefixes [⟨"user", "what is chunking"⟩] "explain more"
     "Sure thing." (by decide) (by decide) (by decide) (by decide)⟩

end KOps
